import Mathlib

/-!
Verification of the tool-recommendation route of `v0claytools`
(`src/app/api/recommend/route.ts`), as a shallow embedding.

The route fetches a JSON catalog, extracts the raw tool array, normalizes
each raw record into a canonical `Tool`, builds a lookup map keyed by the
lower-cased trimmed name, validates a model response against that map,
sorts the survivors by descending relevance score, and applies a minimum
relevance gate before responding.
-/

namespace ClayTools

/-- JavaScript `String.prototype.trim`: drop leading and trailing
whitespace, at the character level. -/
def jsTrim (s : String) : String :=
  ⟨((s.data.dropWhile Char.isWhitespace).reverse.dropWhile
      Char.isWhitespace).reverse⟩

/-- JavaScript `String.prototype.toLowerCase` (ASCII range). -/
def jsToLower (s : String) : String :=
  ⟨s.data.map Char.toLower⟩

/-- Accumulator pass for `split(",")`. -/
def splitCommaAux : List Char → List Char → List String
  | [], acc => [⟨acc.reverse⟩]
  | c :: rest, acc =>
    if c = ',' then ⟨acc.reverse⟩ :: splitCommaAux rest []
    else splitCommaAux rest (c :: acc)

/-- JavaScript `s.split(",")`. -/
def jsSplitComma (s : String) : List String :=
  splitCommaAux s.data []

/-- JSON-like values, the shape of data flowing through the route.
`Option JValue` models a possibly-`undefined` JavaScript value
(`none` = `undefined`). -/
inductive JValue where
  | null : JValue
  | bool : Bool → JValue
  | num : Int → JValue
  | str : String → JValue
  | arr : List JValue → JValue
  | obj : List (String × JValue) → JValue

/-- JavaScript truthiness of a defined value. -/
def truthy : JValue → Bool
  | .null => false
  | .bool b => b
  | .num n => n != 0
  | .str s => s != ""
  | .arr _ => true
  | .obj _ => true

/-- JavaScript truthiness, with `none` standing for `undefined` (falsy). -/
def truthyO : Option JValue → Bool
  | none => false
  | some v => truthy v

/-- Property access `record.key`: `none` when the value is not an object or
the key is absent. -/
def getField : JValue → String → Option JValue
  | .obj fields, key => fields.lookup key
  | _, _ => none

/-- The JavaScript `a || b` operator on possibly-undefined values. -/
def jsOr (a b : Option JValue) : Option JValue :=
  if truthyO a then a else b

/-- The alias chain `rawTool["Name Of Tool"] || rawTool.name || rawTool.Name || rawTool.title`. -/
def nameOf (r : JValue) : Option JValue :=
  jsOr (getField r "Name Of Tool")
    (jsOr (getField r "name") (jsOr (getField r "Name") (getField r "title")))

/-- The alias chain `rawTool.Description || rawTool.description || rawTool.desc || ""`. -/
def descOf (r : JValue) : Option JValue :=
  jsOr (getField r "Description")
    (jsOr (getField r "description") (jsOr (getField r "desc") (some (.str ""))))

/-- The alias chain `rawTool.Url || rawTool.url || rawTool.website || ""`. -/
def urlOf (r : JValue) : Option JValue :=
  jsOr (getField r "Url")
    (jsOr (getField r "url") (jsOr (getField r "website") (some (.str ""))))

/-- The alias chain `rawTool["GTM Use Cases"] || rawTool.use_cases || rawTool.useCases || ""`. -/
def useCasesFieldOf (r : JValue) : Option JValue :=
  jsOr (getField r "GTM Use Cases")
    (jsOr (getField r "use_cases") (jsOr (getField r "useCases") (some (.str ""))))

/-- The alias chain `rawTool["Clay Integration Overview"] || rawTool.integration || ""`. -/
def clayOf (r : JValue) : Option JValue :=
  jsOr (getField r "Clay Integration Overview")
    (jsOr (getField r "integration") (some (.str "")))

/-- The guard `if (name && typeof name === "string" && name.trim())`:
returns the raw name string when the record passes, `none` when the record
is to be dropped. -/
def nameCheck : Option JValue → Option String
  | some (.str s) => if s ≠ "" ∧ jsTrim s ≠ "" then some s else none
  | _ => none

/-- The expression `gtmUseCases ? gtmUseCases.split(",").map(s => s.trim()) : []`.
Calling `.split` on a truthy non-string throws a `TypeError`, modelled as
`Except.error`; the route has no try/catch around normalization, so such an
error fails the whole request. -/
def computeUseCases (v : Option JValue) : Except String (List String) :=
  if truthyO v then
    match v with
    | some (.str s) => .ok ((jsSplitComma s).map jsTrim)
    | _ => .error "TypeError: gtmUseCases.split is not a function"
  else .ok []

/-- The canonical tool record built by normalization. -/
structure Tool where
  name : String
  description : Option JValue
  website : Option JValue
  category : String
  use_cases : List String
  integration_difficulty : String
  pricing_model : String
  clay_integration : Option JValue

/-- Normalize one raw record: `none` when the record is dropped for lacking
a usable name, `error` when the `.split` call throws. -/
def normalizeOne (rawTool : JValue) : Except String (Option Tool) :=
  match nameCheck (nameOf rawTool) with
  | none => .ok none
  | some s =>
    match computeUseCases (useCasesFieldOf rawTool) with
    | .error e => .error e
    | .ok uc => .ok (some
      { name := jsTrim s
        description := descOf rawTool
        website := urlOf rawTool
        category := "Clay Integration"
        use_cases := uc
        integration_difficulty := "Medium"
        pricing_model := "Varies"
        clay_integration := clayOf rawTool })

/-- JavaScript `Map.set`: replace the value in place when the key is present (a JS `Map`
keeps insertion order), append otherwise. -/
def mapSet (m : List (String × Tool)) (k : String) (v : Tool) :
    List (String × Tool) :=
  if m.any (fun p => p.1 == k) then
    m.map (fun p => if p.1 == k then (k, v) else p)
  else m ++ [(k, v)]

/-- JavaScript `Map.get`. -/
def mapGet (m : List (String × Tool)) (k : String) : Option Tool :=
  (m.find? (fun p => p.1 == k)).map Prod.snd

/-- The three accumulators of the normalization loop: `tools`, `toolMap`
and `toolNames`. -/
structure NormState where
  tools : List Tool
  toolMap : List (String × Tool)
  toolNames : List String

/-- One iteration of the `rawTools.forEach` loop. -/
def normStep (st : NormState) (rawTool : JValue) : Except String NormState :=
  match normalizeOne rawTool with
  | .error e => .error e
  | .ok none => .ok st
  | .ok (some t) => .ok
      { tools := st.tools ++ [t]
        toolMap := mapSet st.toolMap (jsToLower t.name) t
        toolNames := st.toolNames ++ [t.name] }

/-- The normalization loop started from a given state. -/
def normalizeFrom (st : NormState) (raws : List JValue) :
    Except String NormState :=
  raws.foldlM normStep st

/-- The whole normalization pass over the raw catalog. -/
def normalizeTools (raws : List JValue) : Except String NormState :=
  normalizeFrom ⟨[], [], []⟩ raws

/-- The scan `Object.values(json).find((val) => Array.isArray(val))` over the
object's own properties in order. -/
def findFirstArray : List (String × JValue) → Option (List JValue)
  | [] => none
  | (_, .arr xs) :: _ => some xs
  | _ :: rest => findFirstArray rest

/-- The catalog extraction policy: a root-level array; else an array under
`tools`; else an array under `data`; else the first array-valued property;
else the empty list (left as the initialization `rawTools = []`). -/
def extractRawTools (json : JValue) : List JValue :=
  match json with
  | .arr xs => xs
  | .obj fields =>
    match fields.lookup "tools" with
    | some (.arr xs) => xs
    | _ =>
      match fields.lookup "data" with
      | some (.arr xs) => xs
      | _ => (findFirstArray fields).getD []
  | _ => []

/-- Extraction followed by the emptiness check
`if (!Array.isArray(rawTools) || rawTools.length === 0) throw ...`. -/
def fetchedToRawTools (json : JValue) : Except String (List JValue) :=
  if (extractRawTools json).isEmpty then .error "No tools array found in JSON"
  else .ok (extractRawTools json)

/-- One object of the model response, as guaranteed by the zod schema:
`tool_name` a string, `relevance_score` a number in `[0, 1]`, `reasoning`
a string. The score is modelled as a rational. -/
structure ModelRec where
  tool_name : String
  relevance_score : ℚ
  reasoning : String

/-- One validated recommendation returned to the caller. -/
structure Recommendation where
  tool : Tool
  relevance_score : ℚ
  reasoning : String

/-- The validation of one model recommendation: drop on empty or literal
"undefined" name, else look the name up after `toLowerCase()` (no trim)
in the lookup map; drop on a miss. -/
def validateRec (toolMap : List (String × Tool)) (rec : ModelRec) :
    Option Recommendation :=
  if rec.tool_name == "" || rec.tool_name == "undefined" then none
  else
    match mapGet toolMap (jsToLower rec.tool_name) with
    | none => none
    | some t => some ⟨t, rec.relevance_score, rec.reasoning⟩

/-- The sort comparator `(a, b) => b.relevance_score - a.relevance_score`
as a relation: `a` may come before `b` when its score is at least `b`'s. -/
def recDescOrder (a b : Recommendation) : Prop :=
  b.relevance_score ≤ a.relevance_score

instance : DecidableRel recDescOrder :=
  fun a b => inferInstanceAs (Decidable (_ ≤ _))

instance : IsTotal Recommendation recDescOrder :=
  ⟨fun a b => (le_total a.relevance_score b.relevance_score).symm⟩

instance : IsTrans Recommendation recDescOrder :=
  ⟨fun _ _ _ hab hbc => le_trans hbc hab⟩

/-- The call `.sort((a, b) => b.relevance_score - a.relevance_score)`: the stable
descending sort mandated for JavaScript arrays. -/
def sortDesc (l : List Recommendation) : List Recommendation :=
  l.insertionSort recDescOrder

/-- The pass `.map(...).filter(Boolean)` over the model response. -/
def survivors (toolMap : List (String × Tool)) (recs : List ModelRec) :
    List Recommendation :=
  recs.filterMap (validateRec toolMap)

/-- The constant `const MIN_RELEVANCE = 0.3`, as an exact rational. -/
def MIN_RELEVANCE : ℚ := mkRat 3 10

/-- The fixed no-confident-match guidance message. -/
def NO_MATCH_MESSAGE : String :=
  "Sorry we couldn't recommend a tool for this use case. You can submit your use case to tanay@claybootcamp.com or check out the whole list of tools at https://remarkable-lily-32f8dd.netlify.app/"

/-- The three response shapes the route produces. -/
inductive RouteResult where
  | errorRes : String → Nat → RouteResult
  | messageRes : String → RouteResult
  | recsRes : List Recommendation → RouteResult

/-- Steps 6-8 of the route: validate the model response against the lookup
map, sort by descending relevance, gate on the minimum relevance. -/
def processModelResponse (toolMap : List (String × Tool))
    (recs : List ModelRec) : RouteResult :=
  let validRecommendations := sortDesc (survivors toolMap recs)
  let hasStrongMatch :=
    validRecommendations.any (fun r => MIN_RELEVANCE ≤ r.relevance_score)
  if validRecommendations.isEmpty || !hasStrongMatch then
    .messageRes NO_MATCH_MESSAGE
  else
    .recsRes validRecommendations

/-- The numbered candidate-name list embedded in the prompt:
`toolNames.map((name, i) => `${i + 1}. ${name}`)`. -/
def numberedToolList (names : List String) : List String :=
  names.enum.map (fun p => toString (p.1 + 1) ++ ". " ++ p.2)

/-! ### Concrete fixtures for witnesses and counterexamples -/

/-- The tool obtained by normalizing the raw record `{"name": "Acme"}`. -/
def tAcme : Tool :=
  { name := "Acme", description := some (.str ""), website := some (.str "")
    category := "Clay Integration", use_cases := []
    integration_difficulty := "Medium", pricing_model := "Varies"
    clay_integration := some (.str "") }

/-- A one-entry lookup map, as built from the catalog `[{"name": "Acme"}]`. -/
def demoMap : List (String × Tool) := [("acme", tAcme)]

/-- A model response mixing a sub-threshold and an above-threshold score. -/
def demoRecs : List ModelRec :=
  [⟨"Acme", mkRat 2 10, "weak"⟩, ⟨"Acme", mkRat 9 10, "strong"⟩]


/-! ### Basic lemmas about validation, sorting and the gate -/

theorem sortDesc_nil : sortDesc [] = [] := rfl

theorem sortDesc_perm (l : List Recommendation) : List.Perm (sortDesc l) l :=
  List.perm_insertionSort _ _

theorem length_sortDesc (l : List Recommendation) :
    (sortDesc l).length = l.length :=
  List.length_insertionSort _ _

theorem mem_sortDesc {l : List Recommendation} {x : Recommendation} :
    x ∈ sortDesc l ↔ x ∈ l :=
  List.mem_insertionSort _

theorem sortDesc_sorted (l : List Recommendation) :
    (sortDesc l).Pairwise recDescOrder :=
  List.sorted_insertionSort _ l

theorem validateRec_some_mapGet {m : List (String × Tool)} {rec : ModelRec}
    {r : Recommendation} (h : validateRec m rec = some r) :
    mapGet m (jsToLower rec.tool_name) = some r.tool := by
  unfold validateRec at h
  split at h
  · exact absurd h (by simp)
  · split at h
    · exact absurd h (by simp)
    · rename_i t ht
      simp only [Option.some.injEq] at h
      subst h
      exact ht

theorem validateRec_rejects (m : List (String × Tool)) (rec : ModelRec)
    (h : rec.tool_name = "" ∨ rec.tool_name = "undefined" ∨
      mapGet m (jsToLower rec.tool_name) = none) :
    validateRec m rec = none := by
  unfold validateRec
  rcases h with h | h | h
  · simp [h]
  · simp [h]
  · split
    · rfl
    · simp [h]

theorem length_survivors_le (m : List (String × Tool)) (recs : List ModelRec) :
    (survivors m recs).length ≤ recs.length :=
  List.length_filterMap_le _ _

/-- The gate of the route, written out: an `if` on emptiness and on the
absence of a strong match. -/
theorem processGate (m : List (String × Tool)) (recs : List ModelRec) :
    processModelResponse m recs =
      if ((sortDesc (survivors m recs)).isEmpty ||
          !(sortDesc (survivors m recs)).any
            (fun r => MIN_RELEVANCE ≤ r.relevance_score)) then
        RouteResult.messageRes NO_MATCH_MESSAGE
      else RouteResult.recsRes (sortDesc (survivors m recs)) := rfl

/-! ### C1 -/

/-- C1: every recommendation in the final returned result references a Tool
present in the lookup map built for the request; any model object whose
`tool_name` is empty, is the literal "undefined", or has no catalog match
is dropped (producing `none`, not an error); and the final result's length
is at most the raw model response's length. -/
theorem C1_returned_recommendations_are_catalog_backed
    (m : List (String × Tool)) (recs : List ModelRec)
    (l : List Recommendation)
    (h : processModelResponse m recs = RouteResult.recsRes l) :
    l.length ≤ recs.length ∧
    (∀ r ∈ l, ∃ k, mapGet m k = some r.tool) ∧
    (∀ rec : ModelRec,
      rec.tool_name = "" ∨ rec.tool_name = "undefined" ∨
        mapGet m (jsToLower rec.tool_name) = none →
      validateRec m rec = none) := by
  rw [processGate] at h
  split at h
  · exact absurd h (by simp)
  · have hl : l = sortDesc (survivors m recs) := by
      cases h
      rfl
    subst hl
    refine ⟨?_, ?_, ?_⟩
    · rw [length_sortDesc]
      exact length_survivors_le m recs
    · intro r hr
      rw [mem_sortDesc] at hr
      obtain ⟨rec, _, hrec⟩ := List.mem_filterMap.mp hr
      exact ⟨jsToLower rec.tool_name, validateRec_some_mapGet hrec⟩
    · exact validateRec_rejects m

/-- Witness for C1 at a concrete request. -/
theorem C1_witness :
    ([(⟨tAcme, mkRat 9 10, "y"⟩ : Recommendation)]).length ≤
      [(⟨"Acme", mkRat 9 10, "y"⟩ : ModelRec)].length ∧
    (∀ r ∈ [(⟨tAcme, mkRat 9 10, "y"⟩ : Recommendation)],
      ∃ k, mapGet demoMap k = some r.tool) ∧
    (∀ rec : ModelRec,
      rec.tool_name = "" ∨ rec.tool_name = "undefined" ∨
        mapGet demoMap (jsToLower rec.tool_name) = none →
      validateRec demoMap rec = none) :=
  C1_returned_recommendations_are_catalog_backed demoMap
    [⟨"Acme", mkRat 9 10, "y"⟩] [⟨tAcme, mkRat 9 10, "y"⟩] rfl

/-! ### C3 -/

/-- C3: if the surviving list is empty, or no survivor has relevance score
at least the 0.3 threshold, the route answers with the fixed no-confident-
match guidance message, a successful outcome rather than an error response
or an empty recommendation array. -/
theorem C3_no_confident_match_message
    (m : List (String × Tool)) (recs : List ModelRec)
    (h : survivors m recs = [] ∨
      ∀ r ∈ survivors m recs, r.relevance_score < MIN_RELEVANCE) :
    processModelResponse m recs = RouteResult.messageRes NO_MATCH_MESSAGE := by
  rw [processGate]
  rcases h with h | h
  · rw [h, sortDesc_nil]
    rfl
  · have hany : (sortDesc (survivors m recs)).any
        (fun r => MIN_RELEVANCE ≤ r.relevance_score) = false := by
      simp only [List.any_eq_false, decide_eq_true_eq]
      intro r hr
      exact not_le.mpr (h r (mem_sortDesc.mp hr))
    rw [hany]
    simp

/-- Witness for C3: a single matched recommendation scoring 0.2. -/
theorem C3_witness :
    processModelResponse demoMap [⟨"Acme", mkRat 2 10, "weak"⟩] =
      RouteResult.messageRes NO_MATCH_MESSAGE :=
  C3_no_confident_match_message demoMap [⟨"Acme", mkRat 2 10, "weak"⟩]
    (Or.inr (by decide))

/-! ### C4 -/

/-- C4: as soon as one survivor reaches the 0.3 threshold, the route
returns the full sorted list of all survivors; membership in the returned
list coincides with membership in the surviving list, so sub-threshold
entries are kept. -/
theorem C4_threshold_gates_whole_result
    (m : List (String × Tool)) (recs : List ModelRec)
    (h : ∃ r ∈ survivors m recs, MIN_RELEVANCE ≤ r.relevance_score) :
    processModelResponse m recs =
      RouteResult.recsRes (sortDesc (survivors m recs)) ∧
    ∀ r : Recommendation,
      r ∈ sortDesc (survivors m recs) ↔ r ∈ survivors m recs := by
  obtain ⟨r, hr, hscore⟩ := h
  have hmem : r ∈ sortDesc (survivors m recs) := mem_sortDesc.mpr hr
  constructor
  · rw [processGate]
    have hne : (sortDesc (survivors m recs)).isEmpty = false := by
      rw [List.isEmpty_eq_false]
      exact List.ne_nil_of_mem hmem
    have hany : (sortDesc (survivors m recs)).any
        (fun x => MIN_RELEVANCE ≤ x.relevance_score) = true := by
      simp only [List.any_eq_true, decide_eq_true_eq]
      exact ⟨r, hmem, hscore⟩
    rw [hne, hany]
    rfl
  · intro x
    exact mem_sortDesc

/-- Witness for C4: with a 0.9 match present, the 0.2 entry is returned
alongside it. -/
theorem C4_witness :
    processModelResponse demoMap demoRecs =
      RouteResult.recsRes (sortDesc (survivors demoMap demoRecs)) ∧
    ∀ r : Recommendation,
      r ∈ sortDesc (survivors demoMap demoRecs) ↔
        r ∈ survivors demoMap demoRecs :=
  C4_threshold_gates_whole_result demoMap demoRecs (by decide)

/-! ### C6 -/

/-- C6: any returned recommendation list is sorted by descending relevance
score: every adjacent pair (a, b) satisfies
a.relevance_score ≥ b.relevance_score. -/
theorem C6_result_sorted_descending
    (m : List (String × Tool)) (recs : List ModelRec)
    (l : List Recommendation)
    (h : processModelResponse m recs = RouteResult.recsRes l) :
    l.Chain' (fun a b => b.relevance_score ≤ a.relevance_score) := by
  rw [processGate] at h
  split at h
  · exact absurd h (by simp)
  · cases h
    exact (sortDesc_sorted _).chain'

/-- Witness for C6 at a concrete request. -/
theorem C6_witness :
    List.Chain' (fun a b => b.relevance_score ≤ a.relevance_score)
      [(⟨tAcme, mkRat 9 10, "strong"⟩ : Recommendation),
        ⟨tAcme, mkRat 2 10, "weak"⟩] :=
  C6_result_sorted_descending demoMap demoRecs
    [⟨tAcme, mkRat 9 10, "strong"⟩, ⟨tAcme, mkRat 2 10, "weak"⟩] rfl

/-! ### Lemmas about the lookup map -/

theorem mapSet_any_iff (m : List (String × Tool)) (k : String) :
    m.any (fun p => p.1 == k) = true ↔ k ∈ m.map Prod.fst := by
  simp only [List.any_eq_true, List.mem_map, beq_iff_eq]

theorem any_key_eq_false_iff (m : List (String × Tool)) (k : String) :
    (m.any (fun p => p.1 == k) = false) ↔ k ∉ m.map Prod.fst := by
  rw [Bool.eq_false_iff, Ne, mapSet_any_iff]

theorem find?_key_cons_pos (p : String × Tool) (m : List (String × Tool))
    (k : String) (h : (p.1 == k) = true) :
    List.find? (fun q => q.1 == k) (p :: m) = some p := by
  rw [List.find?_cons]
  simp only [h]

theorem find?_key_cons_neg (p : String × Tool) (m : List (String × Tool))
    (k : String) (h : (p.1 == k) = false) :
    List.find? (fun q => q.1 == k) (p :: m) =
      List.find? (fun q => q.1 == k) m := by
  rw [List.find?_cons]
  simp only [h]

theorem find_replaced (k : String) (v : Tool) (m : List (String × Tool))
    (h : m.any (fun p => p.1 == k) = true) :
    (m.map (fun p => if p.1 == k then (k, v) else p)).find?
      (fun p => p.1 == k) = some (k, v) := by
  induction m with
  | nil => simp at h
  | cons p m ih =>
    rw [List.any_cons] at h
    simp only [List.map_cons]
    by_cases hp : (p.1 == k) = true
    · rw [if_pos hp]
      exact find?_key_cons_pos (k, v) _ k (by simp)
    · have hp' : (p.1 == k) = false := Bool.eq_false_iff.mpr hp
      rw [if_neg hp]
      rw [hp', Bool.false_or] at h
      rw [find?_key_cons_neg p _ k hp']
      exact ih h

theorem find_replaced_ne (k k' : String) (hne : k' ≠ k) (v : Tool)
    (m : List (String × Tool)) :
    (m.map (fun p => if p.1 == k then (k, v) else p)).find?
      (fun q => q.1 == k') = m.find? (fun q => q.1 == k') := by
  induction m with
  | nil => rfl
  | cons p m ih =>
    simp only [List.map_cons]
    by_cases hp : (p.1 == k) = true
    · have hpk : p.1 = k := beq_iff_eq.mp hp
      have hkv : (((k, v) : String × Tool).1 == k') = false := by
        simp only [beq_eq_false_iff_ne, ne_eq]
        exact fun hh => hne hh.symm
      have hp2 : (p.1 == k') = false := by
        simp only [beq_eq_false_iff_ne, ne_eq, hpk]
        exact fun hh => hne hh.symm
      rw [if_pos hp, find?_key_cons_neg (k, v) _ k' hkv,
        find?_key_cons_neg p m k' hp2]
      exact ih
    · rw [if_neg hp]
      by_cases hq : (p.1 == k') = true
      · rw [find?_key_cons_pos p _ k' hq, find?_key_cons_pos p m k' hq]
      · have hq' : (p.1 == k') = false := Bool.eq_false_iff.mpr hq
        rw [find?_key_cons_neg p _ k' hq', find?_key_cons_neg p m k' hq']
        exact ih

theorem mapGet_append_single_self (m : List (String × Tool)) (k : String)
    (v : Tool) (h : m.any (fun p => p.1 == k) = false) :
    mapGet (m ++ [(k, v)]) k = some v := by
  induction m with
  | nil =>
    unfold mapGet
    rw [List.nil_append, find?_key_cons_pos (k, v) [] k (by simp)]
    rfl
  | cons p m ih =>
    rw [List.any_cons, Bool.or_eq_false_iff] at h
    unfold mapGet at ih ⊢
    rw [List.cons_append, find?_key_cons_neg p _ k h.1]
    exact ih h.2

theorem mapGet_mapSet_self (m : List (String × Tool)) (k : String) (v : Tool) :
    mapGet (mapSet m k v) k = some v := by
  unfold mapSet
  split
  · rename_i h
    unfold mapGet
    rw [find_replaced k v m h]
    rfl
  · rename_i h
    exact mapGet_append_single_self m k v (Bool.eq_false_iff.mpr h)

theorem mapGet_mapSet_ne (m : List (String × Tool)) (k k' : String)
    (v : Tool) (hne : k' ≠ k) :
    mapGet (mapSet m k v) k' = mapGet m k' := by
  unfold mapSet
  split
  · unfold mapGet
    rw [find_replaced_ne k k' hne v m]
  · unfold mapGet
    rw [List.find?_append]
    have hkv : (((k, v) : String × Tool).1 == k') = false := by
      simp only [beq_eq_false_iff_ne, ne_eq]
      exact fun hh => hne hh.symm
    have h1 : (([((k, v))] : List (String × Tool)).find?
        (fun q => q.1 == k')) = none := by
      rw [find?_key_cons_neg (k, v) [] k' hkv, List.find?_nil]
    rw [h1]
    cases m.find? (fun q => q.1 == k') <;> rfl

theorem keys_mapSet_of_mem (m : List (String × Tool)) (k : String) (v : Tool)
    (h : m.any (fun p => p.1 == k) = true) :
    (mapSet m k v).map Prod.fst = m.map Prod.fst := by
  unfold mapSet
  rw [if_pos h, List.map_map]
  apply List.map_congr_left
  intro p _
  by_cases hp : (p.1 == k) = true
  · simp only [Function.comp_apply, if_pos hp]
    exact (beq_iff_eq.mp hp).symm
  · simp only [Function.comp_apply, if_neg hp]

theorem keys_mapSet_of_not_mem (m : List (String × Tool)) (k : String)
    (v : Tool) (h : m.any (fun p => p.1 == k) = false) :
    (mapSet m k v).map Prod.fst = m.map Prod.fst ++ [k] := by
  unfold mapSet
  rw [if_neg (by simp [h]), List.map_append]
  rfl

theorem length_mapSet_of_mem (m : List (String × Tool)) (k : String)
    (v : Tool) (h : m.any (fun p => p.1 == k) = true) :
    (mapSet m k v).length = m.length := by
  have := congrArg List.length (keys_mapSet_of_mem m k v h)
  simpa using this

theorem length_mapSet_of_not_mem (m : List (String × Tool)) (k : String)
    (v : Tool) (h : m.any (fun p => p.1 == k) = false) :
    (mapSet m k v).length = m.length + 1 := by
  have := congrArg List.length (keys_mapSet_of_not_mem m k v h)
  simpa using this

theorem nodup_keys_mapSet (m : List (String × Tool)) (k : String) (v : Tool)
    (h : (m.map Prod.fst).Nodup) :
    ((mapSet m k v).map Prod.fst).Nodup := by
  by_cases hk : m.any (fun p => p.1 == k) = true
  · rw [keys_mapSet_of_mem m k v hk]
    exact h
  · have hk' : m.any (fun p => p.1 == k) = false := Bool.eq_false_iff.mpr hk
    rw [keys_mapSet_of_not_mem m k v hk']
    have hnot : k ∉ m.map Prod.fst := (any_key_eq_false_iff m k).mp hk'
    rw [List.nodup_append]
    exact ⟨h, List.nodup_singleton k, by simpa using hnot⟩

/-! ### C2 -/

/-- C2 counterexample: the catalog `[{"name": "Acme"}]` keys the map at
"acme", and the returned name " Acme" differs from the catalog name only
in leading whitespace — after trimming and lower-casing it equals the key
— yet validation drops it, because the route lower-cases the returned
name without trimming it. -/
theorem C2_counterexample :
    jsToLower (jsTrim " Acme") = "acme" ∧
    mapGet demoMap (jsToLower (jsTrim " Acme")) = some tAcme ∧
    validateRec demoMap ⟨" Acme", mkRat 9 10, "x"⟩ = none ∧
    processModelResponse demoMap [⟨" Acme", mkRat 9 10, "x"⟩] =
      RouteResult.messageRes NO_MATCH_MESSAGE :=
  ⟨rfl, rfl, rfl, rfl⟩

/-- C2 (amended): the lookup map is keyed by the lower-cased *trimmed*
catalog name, so catalog-side case and surrounding whitespace are
immaterial and "  Acme Tool " is retrievable via key "acme tool"; a
model-returned tool_name, however, is looked up after lower-casing only
(no trimming), so a returned name differing from a catalog name only in
letter case still matches that entry, while extra surrounding whitespace
on the returned name does not. -/
theorem C2_amended_lookup_lowercase_only :
    (∀ (r : JValue) (s : String) (st : NormState) (t : Tool),
      nameCheck (nameOf r) = some s → normalizeOne r = .ok (some t) →
      t.name = jsTrim s ∧
      normStep st r = .ok
        ⟨st.tools ++ [t], mapSet st.toolMap (jsToLower (jsTrim s)) t,
          st.toolNames ++ [jsTrim s]⟩) ∧
    (∀ (m : List (String × Tool)) (k : String) (v : Tool),
      mapGet (mapSet m k v) k = some v) ∧
    (∀ (m : List (String × Tool)) (rec : ModelRec) (t : Tool),
      rec.tool_name ≠ "" → rec.tool_name ≠ "undefined" →
      mapGet m (jsToLower rec.tool_name) = some t →
      validateRec m rec = some ⟨t, rec.relevance_score, rec.reasoning⟩) := by
  refine ⟨?_, fun m k v => mapGet_mapSet_self m k v, ?_⟩
  · intro r s st t hname hnorm
    have hn : t.name = jsTrim s := by
      unfold normalizeOne at hnorm
      rw [hname] at hnorm
      rcases hcu : computeUseCases (useCasesFieldOf r) with e | uc
      · rw [hcu] at hnorm
        exact absurd hnorm (by simp)
      · rw [hcu] at hnorm
        simp only [Except.ok.injEq, Option.some.injEq] at hnorm
        rw [← hnorm]
    refine ⟨hn, ?_⟩
    simp only [normStep, hnorm, hn]
  · intro m rec t h1 h2 h3
    unfold validateRec
    rw [h3]
    have hb1 : (rec.tool_name == "") = false := by
      simpa using h1
    have hb2 : (rec.tool_name == "undefined") = false := by
      simpa using h2
    rw [hb1, hb2]
    rfl

/-- Witness for C2 (amended): "  Acme Tool " keys at "acme tool", and the
case-different returned name "ACME" matches the catalog entry "Acme". -/
theorem C2_witness :
    mapGet (mapSet [] (jsToLower (jsTrim "  Acme Tool ")) tAcme)
      (jsToLower (jsTrim "  Acme Tool ")) = some tAcme ∧
    validateRec demoMap ⟨"ACME", mkRat 9 10, "r"⟩ =
      some ⟨tAcme, mkRat 9 10, "r"⟩ :=
  ⟨C2_amended_lookup_lowercase_only.2.1 [] (jsToLower (jsTrim "  Acme Tool "))
      tAcme,
    C2_amended_lookup_lowercase_only.2.2 demoMap ⟨"ACME", mkRat 9 10, "r"⟩
      tAcme (by decide) (by decide) rfl⟩

/-! ### C5 -/

/-- C5 counterexample: a raw record whose use-cases field is present but
not text (the number 42) does not normalize to a Tool with empty
`use_cases`; the `.split` call throws and the whole normalization errors,
so the claim's "completes without error for every raw record regardless of
the field's type" fails. -/
theorem C5_counterexample :
    normalizeTools
        [JValue.obj [("name", JValue.str "A"), ("GTM Use Cases", JValue.num 42)]] =
      .error "TypeError: gtmUseCases.split is not a function" := rfl

/-- C5 (amended): if the aliased use-cases value is non-empty text, the
Tool's `use_cases` is that text split on commas with each fragment
trimmed; if the value is falsy (absent, empty text, zero, false or null —
the alias chain defaults to the empty string) the result is the empty
sequence; but if the value is truthy and not text, the `.split` call
throws a TypeError, which fails the request. -/
theorem C5_amended_use_cases :
    (∀ s : String, s ≠ "" →
      computeUseCases (some (.str s)) = .ok ((jsSplitComma s).map jsTrim)) ∧
    (∀ v : Option JValue, truthyO v = false → computeUseCases v = .ok []) ∧
    (∀ v : Option JValue, truthyO v = true → (∀ s, v ≠ some (.str s)) →
      computeUseCases v =
        .error "TypeError: gtmUseCases.split is not a function") ∧
    (∀ (r : JValue) (t : Tool), normalizeOne r = .ok (some t) →
      computeUseCases (useCasesFieldOf r) = .ok t.use_cases) := by
  refine ⟨?_, ?_, ?_, ?_⟩
  · intro s hs
    unfold computeUseCases
    rw [if_pos (by simpa [truthyO, truthy] using hs)]
  · intro v hv
    unfold computeUseCases
    rw [if_neg (by simp [hv])]
  · intro v hv hns
    unfold computeUseCases
    rw [if_pos hv]
    match v with
    | none => rfl
    | some .null => rfl
    | some (.bool b) => rfl
    | some (.num n) => rfl
    | some (.str s) => exact absurd rfl (hns s)
    | some (.arr xs) => rfl
    | some (.obj fs) => rfl
  · intro r t hnorm
    unfold normalizeOne at hnorm
    rcases hname : nameCheck (nameOf r) with _ | s
    · rw [hname] at hnorm
      exact absurd hnorm (by simp)
    · rw [hname] at hnorm
      rcases hcu : computeUseCases (useCasesFieldOf r) with e | uc
      · rw [hcu] at hnorm
        exact absurd hnorm (by simp)
      · rw [hcu] at hnorm
        simp only [Except.ok.injEq, Option.some.injEq] at hnorm
        rw [← hnorm]

/-- Witness for C5 (amended) at concrete field values. -/
theorem C5_witness :
    computeUseCases (some (.str "a, b ,c")) = .ok ["a", "b", "c"] ∧
    computeUseCases (some (.str "")) = .ok [] ∧
    computeUseCases (some (.num 42)) =
      .error "TypeError: gtmUseCases.split is not a function" :=
  ⟨C5_amended_use_cases.1 "a, b ,c" (by decide),
    C5_amended_use_cases.2.1 (some (.str "")) rfl,
    C5_amended_use_cases.2.2.1 (some (.num 42)) rfl
      (fun s h => JValue.noConfusion (Option.some.inj h))⟩

/-! ### Lemmas about single-record normalization -/

theorem nameCheck_some_props {v : Option JValue} {s : String}
    (h : nameCheck v = some s) : s ≠ "" ∧ jsTrim s ≠ "" := by
  rcases v with _ | (_ | b | n | s' | xs | fs)
  · exact absurd h (by simp [nameCheck])
  · exact absurd h (by simp [nameCheck])
  · exact absurd h (by simp [nameCheck])
  · exact absurd h (by simp [nameCheck])
  · have h' : (if s' ≠ "" ∧ jsTrim s' ≠ "" then some s' else none) = some s :=
      h
    by_cases hcond : s' ≠ "" ∧ jsTrim s' ≠ ""
    · rw [if_pos hcond] at h'
      simp only [Option.some.injEq] at h'
      subst h'
      exact hcond
    · rw [if_neg hcond] at h'
      exact absurd h' (by simp)
  · exact absurd h (by simp [nameCheck])
  · exact absurd h (by simp [nameCheck])

theorem normalizeOne_some_shape {r : JValue} {t : Tool}
    (h : normalizeOne r = .ok (some t)) :
    ∃ s uc, nameCheck (nameOf r) = some s ∧
      computeUseCases (useCasesFieldOf r) = .ok uc ∧
      t = { name := jsTrim s, description := descOf r, website := urlOf r,
            category := "Clay Integration", use_cases := uc,
            integration_difficulty := "Medium", pricing_model := "Varies",
            clay_integration := clayOf r } := by
  unfold normalizeOne at h
  rcases hn : nameCheck (nameOf r) with _ | s
  · rw [hn] at h
    exact absurd h (by simp)
  · rw [hn] at h
    rcases hcu : computeUseCases (useCasesFieldOf r) with e | uc
    · rw [hcu] at h
      exact absurd h (by simp)
    · rw [hcu] at h
      simp only [Except.ok.injEq, Option.some.injEq] at h
      exact ⟨s, uc, rfl, rfl, h.symm⟩

theorem normalizeOne_some_name_ne {r : JValue} {t : Tool}
    (h : normalizeOne r = .ok (some t)) : t.name ≠ "" := by
  obtain ⟨s, uc, hs, _, ht⟩ := normalizeOne_some_shape h
  rw [ht]
  exact (nameCheck_some_props hs).2

theorem normalizeOne_none_iff {r : JValue} :
    normalizeOne r = .ok none ↔ nameCheck (nameOf r) = none := by
  unfold normalizeOne
  rcases hn : nameCheck (nameOf r) with _ | s
  · simp
  · rcases hcu : computeUseCases (useCasesFieldOf r) with e | uc <;> simp

theorem normStep_of_none {st : NormState} {r : JValue}
    (h : nameCheck (nameOf r) = none) : normStep st r = .ok st := by
  unfold normStep
  rw [normalizeOne_none_iff.mpr h]

theorem normStep_of_some {st : NormState} {r : JValue} {t : Tool}
    (h : normalizeOne r = .ok (some t)) :
    normStep st r = .ok
      ⟨st.tools ++ [t], mapSet st.toolMap (jsToLower t.name) t,
        st.toolNames ++ [t.name]⟩ := by
  unfold normStep
  rw [h]

theorem normStep_ok_cases {st st' : NormState} {r : JValue}
    (h : normStep st r = .ok st') :
    (nameCheck (nameOf r) = none ∧ st' = st) ∨
    (∃ t, normalizeOne r = .ok (some t) ∧
      st' = ⟨st.tools ++ [t], mapSet st.toolMap (jsToLower t.name) t,
        st.toolNames ++ [t.name]⟩) := by
  unfold normStep at h
  rcases hno : normalizeOne r with e | (_ | t)
  · rw [hno] at h
    exact absurd h (by simp)
  · rw [hno] at h
    simp only [Except.ok.injEq] at h
    exact Or.inl ⟨normalizeOne_none_iff.mp hno, h.symm⟩
  · rw [hno] at h
    simp only [Except.ok.injEq] at h
    exact Or.inr ⟨t, rfl, h.symm⟩

/-! ### Lemmas about the normalization loop -/

theorem normalizeFrom_nil (st : NormState) : normalizeFrom st [] = .ok st :=
  rfl

theorem normalizeFrom_cons (st : NormState) (r : JValue) (raws : List JValue) :
    normalizeFrom st (r :: raws) =
      match normStep st r with
      | .error e => .error e
      | .ok st1 => normalizeFrom st1 raws := by
  show List.foldlM _ _ _ = _
  rw [List.foldlM_cons]
  rcases normStep st r with e | st1 <;> rfl

theorem normalizeFrom_append (l l' : List JValue) :
    ∀ st0 : NormState, normalizeFrom st0 (l ++ l') =
      match normalizeFrom st0 l with
      | .error e => .error e
      | .ok st1 => normalizeFrom st1 l' := by
  induction l with
  | nil => intro st0; rfl
  | cons r l ih =>
    intro st0
    rw [List.cons_append, normalizeFrom_cons, normalizeFrom_cons]
    rcases normStep st0 r with e | st1
    · rfl
    · exact ih st1

theorem normalizeFrom_cons_ok {st0 st : NormState} {r : JValue}
    {raws : List JValue} (h : normalizeFrom st0 (r :: raws) = .ok st) :
    ∃ st1, normStep st0 r = .ok st1 ∧ normalizeFrom st1 raws = .ok st := by
  rw [normalizeFrom_cons] at h
  rcases hstep : normStep st0 r with e | st1
  · rw [hstep] at h
    exact absurd h (by simp)
  · rw [hstep] at h
    exact ⟨st1, rfl, h⟩

theorem normalizeFrom_append_ok {st0 st : NormState} {l l' : List JValue}
    (h : normalizeFrom st0 (l ++ l') = .ok st) :
    ∃ st1, normalizeFrom st0 l = .ok st1 ∧ normalizeFrom st1 l' = .ok st := by
  rw [normalizeFrom_append] at h
  rcases hl : normalizeFrom st0 l with e | st1
  · rw [hl] at h
    exact absurd h (by simp)
  · rw [hl] at h
    exact ⟨st1, rfl, h⟩

theorem fold_tools_length (raws : List JValue) :
    ∀ st0 st : NormState, normalizeFrom st0 raws = .ok st →
    st.tools.length = st0.tools.length +
      raws.countP (fun r => (nameCheck (nameOf r)).isSome) := by
  induction raws with
  | nil =>
    intro st0 st h
    rw [normalizeFrom_nil] at h
    simp only [Except.ok.injEq] at h
    subst h
    simp
  | cons r raws ih =>
    intro st0 st h
    obtain ⟨st1, hstep, hrest⟩ := normalizeFrom_cons_ok h
    rcases normStep_ok_cases hstep with ⟨hn, rfl⟩ | ⟨t, hno, rfl⟩
    · rw [List.countP_cons_of_neg]
      · exact ih _ st hrest
      · simp [hn]
    · rw [List.countP_cons_of_pos]
      · have := ih _ st hrest
        simp only [List.length_append, List.length_cons, List.length_nil]
          at this
        omega
      · obtain ⟨s, _, hs, _, _⟩ := normalizeOne_some_shape hno
        simp [hs]

theorem fold_toolNames_map (raws : List JValue) :
    ∀ st0 st : NormState, normalizeFrom st0 raws = .ok st →
    st0.toolNames = st0.tools.map Tool.name →
    st.toolNames = st.tools.map Tool.name := by
  induction raws with
  | nil =>
    intro st0 st h h0
    rw [normalizeFrom_nil] at h
    simp only [Except.ok.injEq] at h
    subst h
    exact h0
  | cons r raws ih =>
    intro st0 st h h0
    obtain ⟨st1, hstep, hrest⟩ := normalizeFrom_cons_ok h
    rcases normStep_ok_cases hstep with ⟨hn, rfl⟩ | ⟨t, hno, rfl⟩
    · exact ih _ st hrest h0
    · exact ih _ st hrest (by simp [h0])

theorem mem_mapSet {m : List (String × Tool)} {k : String} {v : Tool}
    {p : String × Tool} (h : p ∈ mapSet m k v) : p ∈ m ∨ p = (k, v) := by
  unfold mapSet at h
  split at h
  · obtain ⟨q, hq, hpq⟩ := List.mem_map.mp h
    by_cases hqk : (q.1 == k) = true
    · rw [if_pos hqk] at hpq
      exact Or.inr hpq.symm
    · rw [if_neg hqk] at hpq
      exact Or.inl (hpq ▸ hq)
  · rcases List.mem_append.mp h with hm | hs
    · exact Or.inl hm
    · exact Or.inr (List.mem_singleton.mp hs)

theorem fold_names_nonempty (raws : List JValue) :
    ∀ st0 st : NormState, normalizeFrom st0 raws = .ok st →
    (∀ t ∈ st0.tools, t.name ≠ "") → (∀ p ∈ st0.toolMap, p.2.name ≠ "") →
    (∀ t ∈ st.tools, t.name ≠ "") ∧ (∀ p ∈ st.toolMap, p.2.name ≠ "") := by
  induction raws with
  | nil =>
    intro st0 st h h1 h2
    rw [normalizeFrom_nil] at h
    simp only [Except.ok.injEq] at h
    subst h
    exact ⟨h1, h2⟩
  | cons r raws ih =>
    intro st0 st h h1 h2
    obtain ⟨st1, hstep, hrest⟩ := normalizeFrom_cons_ok h
    rcases normStep_ok_cases hstep with ⟨hn, rfl⟩ | ⟨t, hno, rfl⟩
    · exact ih _ st hrest h1 h2
    · have hname := normalizeOne_some_name_ne hno
      refine ih _ st hrest ?_ ?_
      · intro t' ht'
        rcases List.mem_append.mp ht' with hm | hs
        · exact h1 t' hm
        · rw [List.mem_singleton.mp hs]
          exact hname
      · intro p hp
        rcases mem_mapSet hp with hm | hpkv
        · exact h2 p hm
        · rw [hpkv]
          exact hname

theorem fold_preserves_other_keys (raws : List JValue) :
    ∀ (st0 st : NormState) (k : String), normalizeFrom st0 raws = .ok st →
    (∀ r ∈ raws, ∀ t : Tool, normalizeOne r = .ok (some t) →
      jsToLower t.name ≠ k) →
    mapGet st.toolMap k = mapGet st0.toolMap k := by
  induction raws with
  | nil =>
    intro st0 st k h _
    rw [normalizeFrom_nil] at h
    simp only [Except.ok.injEq] at h
    subst h
    rfl
  | cons r raws ih =>
    intro st0 st k h hno
    obtain ⟨st1, hstep, hrest⟩ := normalizeFrom_cons_ok h
    rcases normStep_ok_cases hstep with ⟨hn, rfl⟩ | ⟨t, hone, rfl⟩
    · exact ih _ st k hrest (fun r' hr' => hno r' (List.mem_cons_of_mem r hr'))
    · have hkt : k ≠ jsToLower t.name :=
        fun hh => hno r (List.mem_cons_self r raws) t hone hh.symm
      have := ih _ st k hrest (fun r' hr' => hno r' (List.mem_cons_of_mem r hr'))
      rw [this]
      exact mapGet_mapSet_ne st0.toolMap (jsToLower t.name) k t hkt

theorem fold_nodup_keys (raws : List JValue) :
    ∀ st0 st : NormState, normalizeFrom st0 raws = .ok st →
    (st0.toolMap.map Prod.fst).Nodup → (st.toolMap.map Prod.fst).Nodup := by
  induction raws with
  | nil =>
    intro st0 st h h0
    rw [normalizeFrom_nil] at h
    simp only [Except.ok.injEq] at h
    subst h
    exact h0
  | cons r raws ih =>
    intro st0 st h h0
    obtain ⟨st1, hstep, hrest⟩ := normalizeFrom_cons_ok h
    rcases normStep_ok_cases hstep with ⟨hn, rfl⟩ | ⟨t, hno, rfl⟩
    · exact ih _ st hrest h0
    · exact ih _ st hrest (nodup_keys_mapSet _ _ _ h0)

theorem key_mem_mapSet_self (m : List (String × Tool)) (k : String) (v : Tool) :
    k ∈ (mapSet m k v).map Prod.fst := by
  by_cases h : m.any (fun p => p.1 == k) = true
  · rw [keys_mapSet_of_mem m k v h]
    exact (mapSet_any_iff m k).mp h
  · rw [keys_mapSet_of_not_mem m k v (Bool.eq_false_iff.mpr h)]
    simp

theorem fold_key_persists (raws : List JValue) :
    ∀ (st0 st : NormState) (k : String), normalizeFrom st0 raws = .ok st →
    k ∈ st0.toolMap.map Prod.fst → k ∈ st.toolMap.map Prod.fst := by
  induction raws with
  | nil =>
    intro st0 st k h hk
    rw [normalizeFrom_nil] at h
    simp only [Except.ok.injEq] at h
    subst h
    exact hk
  | cons r raws ih =>
    intro st0 st k h hk
    obtain ⟨st1, hstep, hrest⟩ := normalizeFrom_cons_ok h
    rcases normStep_ok_cases hstep with ⟨hn, rfl⟩ | ⟨t, hno, rfl⟩
    · exact ih _ st k hrest hk
    · refine ih _ st k hrest ?_
      by_cases hmem : st0.toolMap.any (fun p => p.1 == jsToLower t.name) = true
      · rw [keys_mapSet_of_mem _ _ _ hmem]
        exact hk
      · rw [keys_mapSet_of_not_mem _ _ _ (Bool.eq_false_iff.mpr hmem)]
        exact List.mem_append_left _ hk

theorem mapGet_some_key_mem {m : List (String × Tool)} {k : String} {t : Tool}
    (h : mapGet m k = some t) : k ∈ m.map Prod.fst := by
  unfold mapGet at h
  rcases hf : m.find? (fun p => p.1 == k) with _ | p
  · rw [hf] at h
    exact absurd h (by simp)
  · have hpk := List.find?_some hf
    have hmem : p ∈ m := List.mem_of_find?_eq_some hf
    rw [← beq_iff_eq.mp hpk]
    exact List.mem_map_of_mem Prod.fst hmem

theorem countP_key_eq_count (m : List (String × Tool)) (k : String) :
    m.countP (fun p => p.1 == k) = (m.map Prod.fst).count k := by
  rw [List.count_eq_countP, List.countP_map]
  rfl

theorem fold_map_le_tools (raws : List JValue) :
    ∀ st0 st : NormState, normalizeFrom st0 raws = .ok st →
    st.toolMap.length + st0.tools.length ≤
      st.tools.length + st0.toolMap.length := by
  induction raws with
  | nil =>
    intro st0 st h
    rw [normalizeFrom_nil] at h
    simp only [Except.ok.injEq] at h
    subst h
    omega
  | cons r raws ih =>
    intro st0 st h
    obtain ⟨st1, hstep, hrest⟩ := normalizeFrom_cons_ok h
    rcases normStep_ok_cases hstep with ⟨hn, rfl⟩ | ⟨t, hno, rfl⟩
    · exact ih _ st hrest
    · have := ih _ st hrest
      simp only [List.length_append, List.length_cons, List.length_nil] at this
      by_cases hmem : st0.toolMap.any (fun p => p.1 == jsToLower t.name) = true
      · rw [length_mapSet_of_mem _ _ _ hmem] at this
        omega
      · rw [length_mapSet_of_not_mem _ _ _ (Bool.eq_false_iff.mpr hmem)] at this
        omega

theorem countP_isSome_add_isNone (raws : List JValue) :
    raws.countP (fun r => (nameCheck (nameOf r)).isSome) +
      raws.countP (fun r => (nameCheck (nameOf r)).isNone) = raws.length := by
  induction raws with
  | nil => rfl
  | cons r raws ih =>
    rcases hn : nameCheck (nameOf r) with _ | s
    · rw [List.countP_cons_of_neg, List.countP_cons_of_pos]
      · rw [List.length_cons]
        omega
      · simp [hn]
      · simp [hn]
    · rw [List.countP_cons_of_pos, List.countP_cons_of_neg]
      · rw [List.length_cons]
        omega
      · simp [hn]
      · simp [hn]

/-! ### C7 -/

theorem extract_tools_miss (fields : List (String × JValue))
    (h : ∀ ys, fields.lookup "tools" ≠ some (.arr ys)) :
    extractRawTools (.obj fields) =
      match fields.lookup "data" with
      | some (.arr xs) => xs
      | _ => (findFirstArray fields).getD [] := by
  show (match fields.lookup "tools" with
    | some (.arr xs) => xs
    | _ =>
      match fields.lookup "data" with
      | some (.arr xs) => xs
      | _ => (findFirstArray fields).getD []) =
    (match fields.lookup "data" with
    | some (.arr xs) => xs
    | _ => (findFirstArray fields).getD [])
  rcases ht : fields.lookup "tools" with _ | (_ | b | n | s | ys | fs)
  · rfl
  · rfl
  · rfl
  · rfl
  · rfl
  · exact absurd ht (h ys)
  · rfl

theorem extract_both_miss (fields : List (String × JValue))
    (ht : ∀ ys, fields.lookup "tools" ≠ some (.arr ys))
    (hd : ∀ ys, fields.lookup "data" ≠ some (.arr ys)) :
    extractRawTools (.obj fields) = (findFirstArray fields).getD [] := by
  rw [extract_tools_miss fields ht]
  rcases hdl : fields.lookup "data" with _ | (_ | b | n | s | ys | fs)
  · rfl
  · rfl
  · rfl
  · rfl
  · rfl
  · exact absurd hdl (hd ys)
  · rfl

/-- C7: the extraction policy is ordered, first match wins: a root-level
array is used directly; else an array under "tools"; else an array under
"data"; else the first array-valued property in document order — each time
exactly that array's elements, in order; and when no array is found or the
extracted array is empty, the request fails with the catalog-unavailable
error. -/
theorem C7_extraction_first_match_wins :
    (∀ xs : List JValue, xs ≠ [] → fetchedToRawTools (.arr xs) = .ok xs) ∧
    (∀ (fields : List (String × JValue)) (xs : List JValue), xs ≠ [] →
      fields.lookup "tools" = some (.arr xs) →
      fetchedToRawTools (.obj fields) = .ok xs) ∧
    (∀ (fields : List (String × JValue)) (xs : List JValue), xs ≠ [] →
      (∀ ys, fields.lookup "tools" ≠ some (.arr ys)) →
      fields.lookup "data" = some (.arr xs) →
      fetchedToRawTools (.obj fields) = .ok xs) ∧
    (∀ (fields : List (String × JValue)) (xs : List JValue), xs ≠ [] →
      (∀ ys, fields.lookup "tools" ≠ some (.arr ys)) →
      (∀ ys, fields.lookup "data" ≠ some (.arr ys)) →
      findFirstArray fields = some xs →
      fetchedToRawTools (.obj fields) = .ok xs) ∧
    (∀ json : JValue, extractRawTools json = [] →
      fetchedToRawTools json = .error "No tools array found in JSON") := by
  have hok : ∀ json : JValue, ∀ xs : List JValue, xs ≠ [] →
      extractRawTools json = xs → fetchedToRawTools json = .ok xs := by
    intro json xs hne hex
    unfold fetchedToRawTools
    rw [hex, if_neg (by simp [List.isEmpty_eq_false, hne])]
  refine ⟨?_, ?_, ?_, ?_, ?_⟩
  · intro xs hne
    exact hok _ xs hne rfl
  · intro fields xs hne htools
    refine hok _ xs hne ?_
    show (match fields.lookup "tools" with
      | some (.arr xs) => xs
      | _ =>
        match fields.lookup "data" with
        | some (.arr xs) => xs
        | _ => (findFirstArray fields).getD []) = xs
    rw [htools]
  · intro fields xs hne htools hdata
    refine hok _ xs hne ?_
    rw [extract_tools_miss fields htools, hdata]
  · intro fields xs hne htools hdata hfirst
    refine hok _ xs hne ?_
    rw [extract_both_miss fields htools hdata, hfirst]
    rfl
  · intro json hex
    unfold fetchedToRawTools
    rw [hex]
    rfl

/-- Witness for C7: a "tools"-keyed array is extracted, and a document
with no array fails. -/
theorem C7_witness :
    fetchedToRawTools (.obj [("x", .str "s"), ("tools", .arr [.num 1])]) =
      .ok [.num 1] ∧
    fetchedToRawTools (.obj [("a", .str "x")]) =
      .error "No tools array found in JSON" :=
  ⟨C7_extraction_first_match_wins.2.1 [("x", .str "s"), ("tools", .arr [.num 1])]
      [.num 1] (List.cons_ne_nil _ _) rfl,
    C7_extraction_first_match_wins.2.2.2.2 (.obj [("a", .str "x")]) rfl⟩

/-! ### C8 -/

/-- C8: a raw record for which no name alias yields a non-empty trimmed
string is dropped from both the tools list and the lookup map without
failing the request; every Tool in the list and in the map has a non-empty
name; and the tools list length equals the raw catalog length minus the
number of dropped records. -/
theorem C8_unnamed_records_dropped (raws : List JValue) (st : NormState)
    (h : normalizeTools raws = .ok st) :
    (∀ t ∈ st.tools, t.name ≠ "") ∧
    (∀ p ∈ st.toolMap, p.2.name ≠ "") ∧
    st.tools.length =
      raws.length - raws.countP (fun r => (nameCheck (nameOf r)).isNone) ∧
    (∀ r : JValue, nameCheck (nameOf r) = none →
      ∀ st0 : NormState, normStep st0 r = .ok st0) := by
  have hnames := fold_names_nonempty raws ⟨[], [], []⟩ st h
    (by intro t ht; exact absurd ht (by simp))
    (by intro p hp; exact absurd hp (by simp))
  refine ⟨hnames.1, hnames.2, ?_, fun r hr st0 => normStep_of_none hr⟩
  have hlen := fold_tools_length raws ⟨[], [], []⟩ st h
  have hsplit := countP_isSome_add_isNone raws
  simp only [List.length_nil, Nat.zero_add] at hlen
  omega

/-- Witness for C8: a catalog of one named record, one record with a blank
name and one record with no name field at all. -/
theorem C8_witness :
    (∀ t ∈ [tAcme], t.name ≠ "") ∧
    (∀ p ∈ [("acme", tAcme)], p.2.name ≠ "") ∧
    ([tAcme] : List Tool).length =
      ([JValue.obj [("name", JValue.str "Acme")],
        JValue.obj [("name", JValue.str "   ")],
        JValue.obj [("desc", JValue.str "x")]]).length -
      ([JValue.obj [("name", JValue.str "Acme")],
        JValue.obj [("name", JValue.str "   ")],
        JValue.obj [("desc", JValue.str "x")]]).countP
        (fun r => (nameCheck (nameOf r)).isNone) ∧
    (∀ r : JValue, nameCheck (nameOf r) = none →
      ∀ st0 : NormState, normStep st0 r = .ok st0) :=
  C8_unnamed_records_dropped
    [JValue.obj [("name", JValue.str "Acme")],
      JValue.obj [("name", JValue.str "   ")],
      JValue.obj [("desc", JValue.str "x")]]
    ⟨[tAcme], [("acme", tAcme)], ["Acme"]⟩ rfl

/-! ### C9 -/

/-- C9: for two raw catalog records whose names agree after trimming and
lower-casing (and no later record writing the same key), the lookup map
holds exactly one entry under that key, and its value is the normalized
record of the later occurrence: last write wins. -/
theorem C9_duplicate_names_last_write_wins
    (l1 l2 l3 : List JValue) (r1 r2 : JValue) (t1 t2 : Tool) (st : NormState)
    (h1 : normalizeOne r1 = .ok (some t1))
    (h2 : normalizeOne r2 = .ok (some t2))
    (hk : jsToLower t1.name = jsToLower t2.name)
    (hlast : ∀ r ∈ l3, ∀ t : Tool, normalizeOne r = .ok (some t) →
      jsToLower t.name ≠ jsToLower t2.name)
    (h : normalizeTools (l1 ++ r1 :: (l2 ++ r2 :: l3)) = .ok st) :
    st.toolMap.countP (fun p => p.1 == jsToLower t2.name) = 1 ∧
    mapGet st.toolMap (jsToLower t2.name) = some t2 := by
  have h' : normalizeFrom ⟨[], [], []⟩ (l1 ++ r1 :: (l2 ++ r2 :: l3)) =
      .ok st := h
  obtain ⟨stA, hA, hrest1⟩ := normalizeFrom_append_ok h'
  obtain ⟨stB, hB, hrest2⟩ := normalizeFrom_cons_ok hrest1
  obtain ⟨stC, hC, hrest3⟩ := normalizeFrom_append_ok hrest2
  obtain ⟨stD, hD, hrest4⟩ := normalizeFrom_cons_ok hrest3
  rw [@normStep_of_some stC r2 t2 h2] at hD
  simp only [Except.ok.injEq] at hD
  subst hD
  have hgetD : mapGet (mapSet stC.toolMap (jsToLower t2.name) t2)
      (jsToLower t2.name) = some t2 :=
    mapGet_mapSet_self stC.toolMap (jsToLower t2.name) t2
  have hget : mapGet st.toolMap (jsToLower t2.name) = some t2 := by
    rw [fold_preserves_other_keys l3 _ st (jsToLower t2.name) hrest4 hlast]
    exact hgetD
  refine ⟨?_, hget⟩
  have hnodup : (st.toolMap.map Prod.fst).Nodup :=
    fold_nodup_keys (l1 ++ r1 :: (l2 ++ r2 :: l3)) ⟨[], [], []⟩ st h'
      (by simp)
  have hmem : jsToLower t2.name ∈ st.toolMap.map Prod.fst :=
    mapGet_some_key_mem hget
  rw [countP_key_eq_count]
  exact List.count_eq_one_of_mem hnodup hmem

/-- The uppercase twin of `tAcme`, as normalized from `{"name": "ACME"}`. -/
def tAcmeUpper : Tool :=
  { name := "ACME", description := some (.str ""), website := some (.str "")
    category := "Clay Integration", use_cases := []
    integration_difficulty := "Medium", pricing_model := "Varies"
    clay_integration := some (.str "") }

/-- Witness for C9: "Acme" then "ACME" collapse to the single key "acme"
holding the later record. -/
theorem C9_witness :
    (⟨[tAcme, tAcmeUpper], [("acme", tAcmeUpper)], ["Acme", "ACME"]⟩ :
        NormState).toolMap.countP
      (fun p => p.1 == jsToLower tAcmeUpper.name) = 1 ∧
    mapGet (⟨[tAcme, tAcmeUpper], [("acme", tAcmeUpper)], ["Acme", "ACME"]⟩ :
        NormState).toolMap
      (jsToLower tAcmeUpper.name) = some tAcmeUpper :=
  C9_duplicate_names_last_write_wins [] [] []
    (JValue.obj [("name", JValue.str "Acme")])
    (JValue.obj [("name", JValue.str "ACME")])
    tAcme tAcmeUpper
    ⟨[tAcme, tAcmeUpper], [("acme", tAcmeUpper)], ["Acme", "ACME"]⟩
    rfl rfl rfl
    (fun r hr => absurd hr (List.not_mem_nil r))
    rfl

/-! ### C10 -/

theorem numberedToolList_length (ns : List String) :
    (numberedToolList ns).length = ns.length := by
  simp [numberedToolList]

/-- C10: duplicate names collapse only in the lookup map, not in the
lists: with two named records sharing a lower-cased trimmed name, the
normalized tools list holds one entry per named record, the prompt's
numbered candidate list pairs one line per entry of the tool-names list
(whose entries are exactly the tools' names, duplicates included), and the
lookup map is strictly smaller than the tools list. -/
theorem C10_duplicates_kept_in_lists
    (l1 l2 l3 : List JValue) (r1 r2 : JValue) (t1 t2 : Tool) (st : NormState)
    (h1 : normalizeOne r1 = .ok (some t1))
    (h2 : normalizeOne r2 = .ok (some t2))
    (hk : jsToLower t1.name = jsToLower t2.name)
    (h : normalizeTools (l1 ++ r1 :: (l2 ++ r2 :: l3)) = .ok st) :
    st.tools.length = (l1 ++ r1 :: (l2 ++ r2 :: l3)).countP
      (fun r => (nameCheck (nameOf r)).isSome) ∧
    st.toolNames = st.tools.map Tool.name ∧
    (numberedToolList st.toolNames).length = st.tools.length ∧
    st.toolMap.length < st.tools.length := by
  have h' : normalizeFrom ⟨[], [], []⟩ (l1 ++ r1 :: (l2 ++ r2 :: l3)) =
      .ok st := h
  have hlen := fold_tools_length (l1 ++ r1 :: (l2 ++ r2 :: l3)) ⟨[], [], []⟩
    st h'
  have hnames := fold_toolNames_map (l1 ++ r1 :: (l2 ++ r2 :: l3)) ⟨[], [], []⟩
    st h' rfl
  refine ⟨by simpa using hlen, hnames, ?_, ?_⟩
  · rw [numberedToolList_length, hnames, List.length_map]
  · obtain ⟨stA, hA, hrest1⟩ := normalizeFrom_append_ok h'
    obtain ⟨stB, hB, hrest2⟩ := normalizeFrom_cons_ok hrest1
    obtain ⟨stC, hC, hrest3⟩ := normalizeFrom_append_ok hrest2
    obtain ⟨stD, hD, hrest4⟩ := normalizeFrom_cons_ok hrest3
    rw [@normStep_of_some stA r1 t1 h1] at hB
    simp only [Except.ok.injEq] at hB
    subst hB
    rw [@normStep_of_some stC r2 t2 h2] at hD
    simp only [Except.ok.injEq] at hD
    subst hD
    have bndA := fold_map_le_tools l1 ⟨[], [], []⟩ stA hA
    simp only [List.length_nil] at bndA
    have stepB_map : (mapSet stA.toolMap (jsToLower t1.name) t1).length ≤
        stA.toolMap.length + 1 := by
      by_cases hmem : stA.toolMap.any (fun p => p.1 == jsToLower t1.name) =
          true
      · rw [length_mapSet_of_mem _ _ _ hmem]
        omega
      · rw [length_mapSet_of_not_mem _ _ _ (Bool.eq_false_iff.mpr hmem)]
    have bndC := fold_map_le_tools l2 _ stC hC
    simp only [List.length_append, List.length_cons, List.length_nil]
      at bndC
    have hkeyB : jsToLower t2.name ∈
        (mapSet stA.toolMap (jsToLower t1.name) t1).map Prod.fst := by
      rw [← hk]
      exact key_mem_mapSet_self stA.toolMap (jsToLower t1.name) t1
    have hkeyC : jsToLower t2.name ∈ stC.toolMap.map Prod.fst :=
      fold_key_persists l2 _ stC (jsToLower t2.name) hC hkeyB
    have stepD_map : (mapSet stC.toolMap (jsToLower t2.name) t2).length =
        stC.toolMap.length :=
      length_mapSet_of_mem _ _ _ ((mapSet_any_iff _ _).mpr hkeyC)
    have bndS := fold_map_le_tools l3 _ st hrest4
    simp only [List.length_append, List.length_cons, List.length_nil,
      stepD_map] at bndS
    omega

/-- Witness for C10 at a two-record catalog naming "Acme" and " Acme ":
both survive into the tools list and the name "Acme" appears twice in the
prompt's name list, while the map holds one entry. -/
theorem C10_witness :
    ([tAcme, tAcme] : List Tool).length =
      ([JValue.obj [("name", JValue.str "Acme")],
        JValue.obj [("name", JValue.str " Acme ")]]).countP
        (fun r => (nameCheck (nameOf r)).isSome) ∧
    (["Acme", "Acme"] : List String) =
      ([tAcme, tAcme] : List Tool).map Tool.name ∧
    (numberedToolList ["Acme", "Acme"]).length =
      ([tAcme, tAcme] : List Tool).length ∧
    ([("acme", tAcme)] : List (String × Tool)).length <
      ([tAcme, tAcme] : List Tool).length :=
  C10_duplicates_kept_in_lists [] [] []
    (JValue.obj [("name", JValue.str "Acme")])
    (JValue.obj [("name", JValue.str " Acme ")])
    tAcme tAcme
    ⟨[tAcme, tAcme], [("acme", tAcme)], ["Acme", "Acme"]⟩
    rfl rfl rfl rfl

end ClayTools
